import Mathlib

/-!
Verification of the Updater.Data core (shaiya-updater): overflow-checked
numeric conversion (`Convert.h`), the sequential binary field reader
(`SBinaryReader.h`), and the hierarchical folder/file model (`SFolder.h`).

The C++ sources under `src/Updater.Data/include` are embedded shallowly:
machine integers become `Nat`/`Int` with explicit bounds, exceptions become
`Except` error values, and the byte stream becomes a list of bytes with an
explicit cursor.  Where a definition's body lives in the repository but
outside the provided sources (the `PathHelper` utilities, the `SFile` class
and the out-of-line `SBinaryReader` method bodies), the definition is
modelled from the specification and marked as such in its doc comment.
-/

/-- The distinct failure conditions of the core, one constructor per error
taxonomy entry of the design (overflow on narrowing conversion, invalid
stream reference at reader construction, short read / end of stream). -/
inductive UpdaterError where
  | overflow
  | invalidArgument
  | shortRead
deriving DecidableEq, Repr

/-- `INT32_MAX`, the largest 32-bit signed integer. -/
def INT32_MAX : Nat := 2147483647

/-- `UINT32_MAX`, the largest 32-bit unsigned integer. -/
def UINT32_MAX : Nat := 4294967295

/-- `Convert::toInt32` from `src/Updater.Data/include/Convert.h`: if the
`size_t` input exceeds `INT32_MAX` it throws an overflow error, otherwise it
returns `static_cast<int32_t>(value)`, which is exact for values in range. -/
def Convert.toInt32 (value : Nat) : Except UpdaterError Int :=
  if value > INT32_MAX then Except.error UpdaterError.overflow
  else Except.ok (value : Int)

/-- `Convert::toUInt32` from `src/Updater.Data/include/Convert.h`: if the
`size_t` input exceeds `UINT32_MAX` it throws an overflow error, otherwise it
returns `static_cast<uint32_t>(value)`, exact for values in range. -/
def Convert.toUInt32 (value : Nat) : Except UpdaterError Nat :=
  if value > UINT32_MAX then Except.error UpdaterError.overflow
  else Except.ok value

/-- The borrowed `std::ifstream`: a sequence of bytes, a read cursor, and a
fail state (`!stream` in C++ is true exactly when the stream is failed). -/
structure IfStream where
  data : List Nat
  pos : Nat
  failed : Bool
deriving DecidableEq, Repr

/-- `SBinaryReader`: wraps exactly one stream reference
(`std::ifstream* stream_`).  State threading is explicit: each read returns
the advanced reader. -/
structure SBinaryReader where
  stream : IfStream
deriving DecidableEq, Repr

/-- The `SBinaryReader` constructor from `src/Updater.Data/include/SBinaryReader.h`:
`if (!stream) throw std::invalid_argument; stream_ = &stream;`.  On an
invalid (failed) stream it errors with no reader constructed; otherwise the
reader wraps exactly the given stream. -/
def SBinaryReader.make (stream : IfStream) : Except UpdaterError SBinaryReader :=
  if stream.failed then Except.error UpdaterError.invalidArgument
  else Except.ok ⟨stream⟩

/-- Number of bytes remaining before the end of the stream. -/
def SBinaryReader.remaining (r : SBinaryReader) : Nat :=
  r.stream.data.length - r.stream.pos

/-- Modelled from the spec: the stream's primitive "sequential read of N
bytes (or failure)" used by every reader operation (the out-of-line
`SBinaryReader` method bodies are not under `src/`).  If fewer than `n`
bytes remain the call fails with the short-read condition and no value is
produced; otherwise it yields the `n` bytes at the cursor and the reader
advanced past them. -/
def SBinaryReader.readBytes (r : SBinaryReader) (n : Nat) :
    Except UpdaterError (List Nat × SBinaryReader) :=
  if r.stream.pos + n ≤ r.stream.data.length then
    Except.ok ((r.stream.data.drop r.stream.pos).take n,
      ⟨⟨r.stream.data, r.stream.pos + n, r.stream.failed⟩⟩)
  else Except.error UpdaterError.shortRead

/-- Little-endian value of a byte list (first byte least significant). -/
def fromLE (bs : List Nat) : Nat :=
  bs.foldr (fun b acc => b + 256 * acc) 0

/-- The little-endian `w`-byte encoding of `v` (used to state round-trips). -/
def encodeLE : Nat → Nat → List Nat
  | 0, _ => []
  | w + 1, v => v % 256 :: encodeLE w (v / 256)

/-- Two's-complement reinterpretation of an unsigned `bits`-bit value. -/
def toSigned (bits : Nat) (n : Nat) : Int :=
  if n < 2 ^ (bits - 1) then (n : Int) else (n : Int) - 2 ^ bits

/-- Modelled from the spec: `SBinaryReader::readUInt8` (1 byte, unsigned). -/
def SBinaryReader.readUInt8 (r : SBinaryReader) :
    Except UpdaterError (Nat × SBinaryReader) :=
  (r.readBytes 1).map (fun p => (fromLE p.1, p.2))

/-- Modelled from the spec: `SBinaryReader::readUInt16` (2 bytes, little-endian). -/
def SBinaryReader.readUInt16 (r : SBinaryReader) :
    Except UpdaterError (Nat × SBinaryReader) :=
  (r.readBytes 2).map (fun p => (fromLE p.1, p.2))

/-- Modelled from the spec: `SBinaryReader::readUInt32` (4 bytes, little-endian). -/
def SBinaryReader.readUInt32 (r : SBinaryReader) :
    Except UpdaterError (Nat × SBinaryReader) :=
  (r.readBytes 4).map (fun p => (fromLE p.1, p.2))

/-- Modelled from the spec: `SBinaryReader::readUInt64` (8 bytes, little-endian). -/
def SBinaryReader.readUInt64 (r : SBinaryReader) :
    Except UpdaterError (Nat × SBinaryReader) :=
  (r.readBytes 8).map (fun p => (fromLE p.1, p.2))

/-- Modelled from the spec: `SBinaryReader::readInt8` (1 byte, two's complement). -/
def SBinaryReader.readInt8 (r : SBinaryReader) :
    Except UpdaterError (Int × SBinaryReader) :=
  (r.readBytes 1).map (fun p => (toSigned 8 (fromLE p.1), p.2))

/-- Modelled from the spec: `SBinaryReader::readInt16` (2 bytes, little-endian,
two's complement). -/
def SBinaryReader.readInt16 (r : SBinaryReader) :
    Except UpdaterError (Int × SBinaryReader) :=
  (r.readBytes 2).map (fun p => (toSigned 16 (fromLE p.1), p.2))

/-- Modelled from the spec: `SBinaryReader::readInt32` (4 bytes, little-endian,
two's complement). -/
def SBinaryReader.readInt32 (r : SBinaryReader) :
    Except UpdaterError (Int × SBinaryReader) :=
  (r.readBytes 4).map (fun p => (toSigned 32 (fromLE p.1), p.2))

/-- Modelled from the spec: `SBinaryReader::readInt64` (8 bytes, little-endian,
two's complement). -/
def SBinaryReader.readInt64 (r : SBinaryReader) :
    Except UpdaterError (Int × SBinaryReader) :=
  (r.readBytes 8).map (fun p => (toSigned 64 (fromLE p.1), p.2))

/-- Modelled from the spec: `SBinaryReader::readSingle` (4 bytes, IEEE-754
single precision, raw bit reinterpretation).  The value is kept as its raw
32-bit pattern, since the spec mandates bit-exact reinterpretation with no
normalization. -/
def SBinaryReader.readSingle (r : SBinaryReader) :
    Except UpdaterError (Nat × SBinaryReader) :=
  (r.readBytes 4).map (fun p => (fromLE p.1, p.2))

/-- Modelled from the spec: `SBinaryReader::readDouble` (8 bytes, IEEE-754
double precision, raw bit reinterpretation, kept as the raw 64-bit pattern). -/
def SBinaryReader.readDouble (r : SBinaryReader) :
    Except UpdaterError (Nat × SBinaryReader) :=
  (r.readBytes 8).map (fun p => (fromLE p.1, p.2))

/-- Modelled from the spec: `SBinaryReader::readChars(count)` reads exactly
`count` raw bytes and maps each byte to a character (no encoding conversion). -/
def SBinaryReader.readChars (r : SBinaryReader) (count : Nat) :
    Except UpdaterError (String × SBinaryReader) :=
  (r.readBytes count).map (fun p => (String.mk (p.1.map Char.ofNat), p.2))

/-- Modelled from the spec: `SBinaryReader::readString` first reads the
length as a 4-byte unsigned little-endian integer, then reads that many
characters from the stream. -/
def SBinaryReader.readString (r : SBinaryReader) :
    Except UpdaterError (String × SBinaryReader) :=
  match r.readUInt32 with
  | Except.error e => Except.error e
  | Except.ok (len, r') => r'.readChars len

/-- Modelled from the spec: `SBinaryReader::ignore(count)` advances the
position past `count` bytes, failing with a short read if the stream ends
first. -/
def SBinaryReader.skipBytes (r : SBinaryReader) (count : Nat) :
    Except UpdaterError SBinaryReader :=
  (r.readBytes count).map (fun p => p.2)

/-- The (4-byte little-endian length, raw bytes) encoding of a string, the
wire format `readString` decodes. -/
def encodeString (s : String) : List Nat :=
  encodeLE 4 s.length ++ s.data.map Char.toNat

/-- C1: for every platform-width unsigned value `v` (a 64-bit `size_t`),
`Convert::toInt32` succeeds with a numerically equal value when
`v ≤ INT32_MAX` and fails with the overflow condition when `v > INT32_MAX`;
symmetrically `Convert::toUInt32` succeeds exactly when `v ≤ UINT32_MAX`
and otherwise fails with overflow.  No truncation or wrapping occurs: the
returned value is `v` itself. -/
theorem Convert.toInt32_toUInt32_overflow_spec (v : Nat) (h : v < 2 ^ 64) :
    (v ≤ INT32_MAX → Convert.toInt32 v = Except.ok (v : Int)) ∧
    (v > INT32_MAX → Convert.toInt32 v = Except.error UpdaterError.overflow) ∧
    (v ≤ UINT32_MAX → Convert.toUInt32 v = Except.ok v) ∧
    (v > UINT32_MAX → Convert.toUInt32 v = Except.error UpdaterError.overflow) := by
  refine ⟨fun hv => ?_, fun hv => ?_, fun hv => ?_, fun hv => ?_⟩ <;>
    simp [Convert.toInt32, Convert.toUInt32, INT32_MAX, UINT32_MAX] at hv ⊢ <;>
    omega

/-- Witness for C1 at concrete inputs: `5` converts exactly, and
`4294967296` overflows the unsigned conversion. -/
theorem Convert.toInt32_toUInt32_overflow_spec_witness :
    Convert.toInt32 5 = Except.ok 5 ∧
    Convert.toUInt32 4294967296 = Except.error UpdaterError.overflow := by
  have h1 := Convert.toInt32_toUInt32_overflow_spec 5 (by norm_num)
  have h2 := Convert.toInt32_toUInt32_overflow_spec 4294967296 (by norm_num)
  exact ⟨h1.1 (by norm_num [INT32_MAX]), h2.2.2.2 (by norm_num [UINT32_MAX])⟩

/-- C9: constructing a reader over an invalid (failed) stream fails
immediately with no reader state created, and constructing it over a valid
stream succeeds with the reader wrapping exactly that one stream reference. -/
theorem SBinaryReader.make_construction_spec (s : IfStream) :
    (s.failed = true →
      SBinaryReader.make s = Except.error UpdaterError.invalidArgument) ∧
    (s.failed = false →
      SBinaryReader.make s = Except.ok ⟨s⟩ ∧
      ∀ r, SBinaryReader.make s = Except.ok r → r.stream = s) := by
  constructor
  · intro hf
    simp [SBinaryReader.make, hf]
  · intro hf
    refine ⟨by simp [SBinaryReader.make, hf], ?_⟩
    intro r hr
    simp [SBinaryReader.make, hf] at hr
    rw [← hr]

/-- Witness for C9: a failed stream is rejected, a good stream is wrapped. -/
theorem SBinaryReader.make_construction_spec_witness :
    SBinaryReader.make ⟨[7], 0, true⟩ = Except.error UpdaterError.invalidArgument ∧
    SBinaryReader.make ⟨[7], 0, false⟩ = Except.ok ⟨⟨[7], 0, false⟩⟩ := by
  have h1 := SBinaryReader.make_construction_spec ⟨[7], 0, true⟩
  have h2 := SBinaryReader.make_construction_spec ⟨[7], 0, false⟩
  exact ⟨h1.1 rfl, (h2.2 rfl).1⟩

/-- A read of `n` bytes fails with the short-read condition whenever fewer
than `n` bytes remain. -/
theorem SBinaryReader.readBytes_short (r : SBinaryReader) (n : Nat)
    (h : r.remaining < n) :
    r.readBytes n = Except.error UpdaterError.shortRead := by
  unfold SBinaryReader.readBytes
  rw [if_neg]
  unfold SBinaryReader.remaining at h
  omega

/-- C5: every read operation of the reader, called when fewer bytes remain
than it requires, fails with the short-read error condition — which is
distinct from the overflow condition — and produces no value at all (the
error carries no zero-filled or partial result).  For `readString`, the call
fails when the 4-byte length prefix cannot be read, and also when the prefix
is read but fewer bytes than the decoded length remain for the body. -/
theorem SBinaryReader.short_read_spec (r : SBinaryReader) (count : Nat) :
    (r.remaining < 1 → r.readInt8 = Except.error UpdaterError.shortRead) ∧
    (r.remaining < 2 → r.readInt16 = Except.error UpdaterError.shortRead) ∧
    (r.remaining < 4 → r.readInt32 = Except.error UpdaterError.shortRead) ∧
    (r.remaining < 8 → r.readInt64 = Except.error UpdaterError.shortRead) ∧
    (r.remaining < 1 → r.readUInt8 = Except.error UpdaterError.shortRead) ∧
    (r.remaining < 2 → r.readUInt16 = Except.error UpdaterError.shortRead) ∧
    (r.remaining < 4 → r.readUInt32 = Except.error UpdaterError.shortRead) ∧
    (r.remaining < 8 → r.readUInt64 = Except.error UpdaterError.shortRead) ∧
    (r.remaining < 4 → r.readSingle = Except.error UpdaterError.shortRead) ∧
    (r.remaining < 8 → r.readDouble = Except.error UpdaterError.shortRead) ∧
    (r.remaining < count → r.readChars count = Except.error UpdaterError.shortRead) ∧
    (r.remaining < 4 → r.readString = Except.error UpdaterError.shortRead) ∧
    (∀ len r', r.readUInt32 = Except.ok (len, r') → r'.remaining < len →
      r.readString = Except.error UpdaterError.shortRead) ∧
    UpdaterError.shortRead ≠ UpdaterError.overflow := by
  refine ⟨fun h => ?_, fun h => ?_, fun h => ?_, fun h => ?_, fun h => ?_,
    fun h => ?_, fun h => ?_, fun h => ?_, fun h => ?_, fun h => ?_,
    fun h => ?_, fun h => ?_, fun len r' hok h => ?_, by simp⟩
  · simp [Except.map, SBinaryReader.readInt8, SBinaryReader.readBytes_short r 1 h]
  · simp [Except.map, SBinaryReader.readInt16, SBinaryReader.readBytes_short r 2 h]
  · simp [Except.map, SBinaryReader.readInt32, SBinaryReader.readBytes_short r 4 h]
  · simp [Except.map, SBinaryReader.readInt64, SBinaryReader.readBytes_short r 8 h]
  · simp [Except.map, SBinaryReader.readUInt8, SBinaryReader.readBytes_short r 1 h]
  · simp [Except.map, SBinaryReader.readUInt16, SBinaryReader.readBytes_short r 2 h]
  · simp [Except.map, SBinaryReader.readUInt32, SBinaryReader.readBytes_short r 4 h]
  · simp [Except.map, SBinaryReader.readUInt64, SBinaryReader.readBytes_short r 8 h]
  · simp [Except.map, SBinaryReader.readSingle, SBinaryReader.readBytes_short r 4 h]
  · simp [Except.map, SBinaryReader.readDouble, SBinaryReader.readBytes_short r 8 h]
  · simp [Except.map, SBinaryReader.readChars, SBinaryReader.readBytes_short r count h]
  · have h4 : r.readUInt32 = Except.error UpdaterError.shortRead := by
      simp [Except.map, SBinaryReader.readUInt32, SBinaryReader.readBytes_short r 4 h]
    simp [SBinaryReader.readString, h4]
  · simp [Except.map, SBinaryReader.readString, hok,
      SBinaryReader.readChars, SBinaryReader.readBytes_short r' len h]

/-- Witness for C5: on an empty one-byte-short stream every operation
reports the short-read error. -/
theorem SBinaryReader.short_read_spec_witness :
    SBinaryReader.readInt32 ⟨⟨[1, 2], 0, false⟩⟩ =
      Except.error UpdaterError.shortRead ∧
    SBinaryReader.readChars ⟨⟨[1, 2], 0, false⟩⟩ 3 =
      Except.error UpdaterError.shortRead ∧
    SBinaryReader.readString ⟨⟨[1, 2], 0, false⟩⟩ =
      Except.error UpdaterError.shortRead := by
  have h := SBinaryReader.short_read_spec ⟨⟨[1, 2], 0, false⟩⟩ 3
  exact ⟨h.2.2.1 (by decide), h.2.2.2.2.2.2.2.2.2.2.1 (by decide),
    h.2.2.2.2.2.2.2.2.2.2.2.1 (by decide)⟩

/-- The `w`-byte little-endian encoding has exactly `w` bytes. -/
theorem encodeLE_length (w v : Nat) : (encodeLE w v).length = w := by
  induction w generalizing v with
  | zero => rfl
  | succ w ih => simp [encodeLE, ih]

/-- Decoding the `w`-byte little-endian encoding of `v` recovers
`v` modulo `256 ^ w`. -/
theorem fromLE_encodeLE (w v : Nat) : fromLE (encodeLE w v) = v % 256 ^ w := by
  induction w generalizing v with
  | zero => simp [encodeLE, fromLE, Nat.mod_one]
  | succ w ih =>
    have hm : v % (256 * 256 ^ w) = v % 256 + 256 * (v / 256 % 256 ^ w) :=
      Nat.mod_mul
    simp only [encodeLE, fromLE, List.foldr_cons]
    rw [pow_succ']
    rw [hm]
    have := ih (v / 256)
    simp only [fromLE] at this
    rw [this]

/-- Reading `n` bytes of a stream positioned at the start of its right part
yields exactly the first `n` bytes of that part. -/
theorem SBinaryReader.readBytes_at (dataL dataR : List Nat) (n : Nat)
    (h : n ≤ dataR.length) :
    SBinaryReader.readBytes ⟨⟨dataL ++ dataR, dataL.length, false⟩⟩ n =
      Except.ok (dataR.take n,
        ⟨⟨dataL ++ dataR, dataL.length + n, false⟩⟩) := by
  unfold SBinaryReader.readBytes
  rw [if_pos]
  · simp [List.drop_left]
  · simp
    omega

/-- Two's-complement reinterpretation inverts reduction modulo `2 ^ 8`
on the 8-bit signed range. -/
theorem toSigned_emod8 (i : Int) (h1 : -128 ≤ i) (h2 : i < 128) :
    toSigned 8 ((i % 256).toNat) = i := by
  unfold toSigned
  norm_num
  split <;> omega

/-- Two's-complement reinterpretation inverts reduction modulo `2 ^ 16`
on the 16-bit signed range. -/
theorem toSigned_emod16 (i : Int) (h1 : -32768 ≤ i) (h2 : i < 32768) :
    toSigned 16 ((i % 65536).toNat) = i := by
  unfold toSigned
  norm_num
  split <;> omega

/-- Two's-complement reinterpretation inverts reduction modulo `2 ^ 32`
on the 32-bit signed range. -/
theorem toSigned_emod32 (i : Int) (h1 : -2147483648 ≤ i) (h2 : i < 2147483648) :
    toSigned 32 ((i % 4294967296).toNat) = i := by
  unfold toSigned
  norm_num
  split <;> omega

/-- Two's-complement reinterpretation inverts reduction modulo `2 ^ 64`
on the 64-bit signed range. -/
theorem toSigned_emod64 (i : Int)
    (h1 : -9223372036854775808 ≤ i) (h2 : i < 9223372036854775808) :
    toSigned 64 ((i % 18446744073709551616).toNat) = i := by
  unfold toSigned
  norm_num
  split <;> omega

/-- Reading `w` bytes of a stream that starts with a `w`-byte encoding
yields exactly that encoding and advances past it. -/
theorem SBinaryReader.readBytes_encodeLE (w v : Nat) (rest : List Nat) :
    SBinaryReader.readBytes ⟨⟨encodeLE w v ++ rest, 0, false⟩⟩ w =
      Except.ok (encodeLE w v, ⟨⟨encodeLE w v ++ rest, w, false⟩⟩) := by
  unfold SBinaryReader.readBytes
  rw [if_pos]
  · simp [List.take_left', encodeLE_length]
  · simp [encodeLE_length]

/-- C7: little-endian round-trip for every fixed-width integer read.  For
each width (1, 2, 4, 8 bytes) and every value of the corresponding type,
writing the value as its little-endian byte sequence (two's complement for
signed values) and reading it back with the matching operation returns the
original value and advances the reader exactly past those bytes. -/
theorem SBinaryReader.fixed_width_roundtrip_spec
    (u8 u16 u32 u64 : Nat) (i8 i16 i32 i64 : Int) (rest : List Nat)
    (hu8 : u8 < 256) (hu16 : u16 < 65536) (hu32 : u32 < 4294967296)
    (hu64 : u64 < 18446744073709551616)
    (hi8l : -128 ≤ i8) (hi8u : i8 < 128)
    (hi16l : -32768 ≤ i16) (hi16u : i16 < 32768)
    (hi32l : -2147483648 ≤ i32) (hi32u : i32 < 2147483648)
    (hi64l : -9223372036854775808 ≤ i64) (hi64u : i64 < 9223372036854775808) :
    SBinaryReader.readUInt8 ⟨⟨encodeLE 1 u8 ++ rest, 0, false⟩⟩ =
      Except.ok (u8, ⟨⟨encodeLE 1 u8 ++ rest, 1, false⟩⟩) ∧
    SBinaryReader.readUInt16 ⟨⟨encodeLE 2 u16 ++ rest, 0, false⟩⟩ =
      Except.ok (u16, ⟨⟨encodeLE 2 u16 ++ rest, 2, false⟩⟩) ∧
    SBinaryReader.readUInt32 ⟨⟨encodeLE 4 u32 ++ rest, 0, false⟩⟩ =
      Except.ok (u32, ⟨⟨encodeLE 4 u32 ++ rest, 4, false⟩⟩) ∧
    SBinaryReader.readUInt64 ⟨⟨encodeLE 8 u64 ++ rest, 0, false⟩⟩ =
      Except.ok (u64, ⟨⟨encodeLE 8 u64 ++ rest, 8, false⟩⟩) ∧
    SBinaryReader.readInt8 ⟨⟨encodeLE 1 ((i8 % 256).toNat) ++ rest, 0, false⟩⟩ =
      Except.ok (i8, ⟨⟨encodeLE 1 ((i8 % 256).toNat) ++ rest, 1, false⟩⟩) ∧
    SBinaryReader.readInt16 ⟨⟨encodeLE 2 ((i16 % 65536).toNat) ++ rest, 0, false⟩⟩ =
      Except.ok (i16, ⟨⟨encodeLE 2 ((i16 % 65536).toNat) ++ rest, 2, false⟩⟩) ∧
    SBinaryReader.readInt32 ⟨⟨encodeLE 4 ((i32 % 4294967296).toNat) ++ rest, 0, false⟩⟩ =
      Except.ok (i32, ⟨⟨encodeLE 4 ((i32 % 4294967296).toNat) ++ rest, 4, false⟩⟩) ∧
    SBinaryReader.readInt64 ⟨⟨encodeLE 8 ((i64 % 18446744073709551616).toNat) ++ rest, 0, false⟩⟩ =
      Except.ok (i64,
        ⟨⟨encodeLE 8 ((i64 % 18446744073709551616).toNat) ++ rest, 8, false⟩⟩) := by
  refine ⟨?_, ?_, ?_, ?_, ?_, ?_, ?_, ?_⟩
  · simp [SBinaryReader.readUInt8, SBinaryReader.readBytes_encodeLE,
      Except.map, fromLE_encodeLE]
    omega
  · simp [SBinaryReader.readUInt16, SBinaryReader.readBytes_encodeLE,
      Except.map, fromLE_encodeLE]
    omega
  · simp [SBinaryReader.readUInt32, SBinaryReader.readBytes_encodeLE,
      Except.map, fromLE_encodeLE]
    omega
  · simp [SBinaryReader.readUInt64, SBinaryReader.readBytes_encodeLE,
      Except.map, fromLE_encodeLE]
    omega
  · simp [SBinaryReader.readInt8, SBinaryReader.readBytes_encodeLE,
      Except.map, fromLE_encodeLE]
    rw [Nat.mod_eq_of_lt (by omega)]
    exact toSigned_emod8 i8 hi8l hi8u
  · simp [SBinaryReader.readInt16, SBinaryReader.readBytes_encodeLE,
      Except.map, fromLE_encodeLE]
    rw [Nat.mod_eq_of_lt (by omega)]
    exact toSigned_emod16 i16 hi16l hi16u
  · simp [SBinaryReader.readInt32, SBinaryReader.readBytes_encodeLE,
      Except.map, fromLE_encodeLE]
    rw [Nat.mod_eq_of_lt (by omega)]
    exact toSigned_emod32 i32 hi32l hi32u
  · simp [SBinaryReader.readInt64, SBinaryReader.readBytes_encodeLE,
      Except.map, fromLE_encodeLE]
    rw [Nat.mod_eq_of_lt (by omega)]
    exact toSigned_emod64 i64 hi64l hi64u

/-- Witness for C7 at concrete inputs: the unsigned 16-bit value `40000`
and the signed 8-bit value `-5` both round-trip through their little-endian
encodings. -/
theorem SBinaryReader.fixed_width_roundtrip_spec_witness :
    SBinaryReader.readUInt16 ⟨⟨encodeLE 2 40000 ++ [], 0, false⟩⟩ =
      Except.ok (40000, ⟨⟨encodeLE 2 40000 ++ [], 2, false⟩⟩) ∧
    SBinaryReader.readInt8 ⟨⟨encodeLE 1 (((-5 : Int) % 256).toNat) ++ [], 0, false⟩⟩ =
      Except.ok (-5, ⟨⟨encodeLE 1 (((-5 : Int) % 256).toNat) ++ [], 1, false⟩⟩) := by
  have h := SBinaryReader.fixed_width_roundtrip_spec
    200 40000 3000000000 10000000000000000000 (-5) (-2) (-3) (-4) []
    (by norm_num) (by norm_num) (by norm_num) (by norm_num)
    (by norm_num) (by norm_num) (by norm_num) (by norm_num)
    (by norm_num) (by norm_num) (by norm_num) (by norm_num)
  exact ⟨h.2.1, h.2.2.2.2.1⟩

/-- C6: `readString` round-trips the wire format.  Encoding any string as a
4-byte unsigned little-endian length prefix followed by its raw bytes (one
byte per character, no terminator, no conversion) and decoding with
`readString` returns the original text and leaves the reader positioned
exactly after the `4 + length` consumed bytes.  This holds for every string
whose length fits the 32-bit prefix, in particular lengths 0, 1 and 65536. -/
theorem SBinaryReader.readString_roundtrip_spec (s : String) (rest : List Nat)
    (hlen : s.length < 4294967296)
    (hbytes : ∀ c ∈ s.data, Char.toNat c < 256) :
    SBinaryReader.readString ⟨⟨encodeString s ++ rest, 0, false⟩⟩ =
      Except.ok (s, ⟨⟨encodeString s ++ rest, 4 + s.length, false⟩⟩) := by
  have hdata : encodeString s ++ rest =
      encodeLE 4 s.length ++ (s.data.map Char.toNat ++ rest) := by
    simp [encodeString]
  have hlen4 : (encodeLE 4 s.length).length = 4 := encodeLE_length 4 s.length
  have h1 : SBinaryReader.readUInt32 ⟨⟨encodeString s ++ rest, 0, false⟩⟩ =
      Except.ok (s.length, ⟨⟨encodeString s ++ rest, 4, false⟩⟩) := by
    rw [hdata, SBinaryReader.readUInt32, SBinaryReader.readBytes_encodeLE]
    simp [Except.map, fromLE_encodeLE]
    omega
  have h2 : SBinaryReader.readChars ⟨⟨encodeString s ++ rest, 4, false⟩⟩
      s.length =
      Except.ok (s, ⟨⟨encodeString s ++ rest, 4 + s.length, false⟩⟩) := by
    have h3 := SBinaryReader.readBytes_at (encodeLE 4 s.length)
      (s.data.map Char.toNat ++ rest) s.length (by simp)
    rw [hlen4] at h3
    rw [SBinaryReader.readChars, hdata, h3]
    have h4 : (s.data.map Char.toNat ++ rest).take s.length =
        s.data.map Char.toNat :=
      List.take_left' (by simp)
    simp [Except.map, h4, List.map_map, Function.comp_def, Char.ofNat_toNat]
  rw [SBinaryReader.readString, h1]
  exact h2

/-- Witness for C6: the empty string and a two-character string both
round-trip through the length-prefixed encoding. -/
theorem SBinaryReader.readString_roundtrip_spec_witness :
    SBinaryReader.readString ⟨⟨encodeString "" ++ [], 0, false⟩⟩ =
      Except.ok ("", ⟨⟨encodeString "" ++ [], 4 + String.length "", false⟩⟩) ∧
    SBinaryReader.readString ⟨⟨encodeString "ab" ++ [], 0, false⟩⟩ =
      Except.ok ("ab", ⟨⟨encodeString "ab" ++ [], 4 + String.length "ab", false⟩⟩) := by
  exact ⟨SBinaryReader.readString_roundtrip_spec "" [] (by decide) (by decide),
    SBinaryReader.readString_roundtrip_spec "ab" [] (by decide) (by decide)⟩

/-- The platform path-segment separator used by `std::filesystem::path`
joins in the target build. -/
def pathSeparator : String := "/"

/-- Modelled from the spec: `PathHelper::combine` (PathHelper.h is not under
`src/`): appends `childName` as a new path segment under `parentPath` using
the platform path-segment separator, altering neither string and inserting
exactly one separator. -/
def PathHelper.combine (parentPath childName : String) : String :=
  parentPath ++ pathSeparator ++ childName

mutual

/-- `SFolder` from `src/Updater.Data/include/SFolder.h`: the stored `path`,
`name` and `parentFolder` members, plus the `files` and `subfolders` child
mappings (association lists ordered by the case-insensitive comparator,
mirroring `std::map<std::filesystem::path, ..., PathICompareLT>`). -/
inductive SFolder : Type where
  | mk (path : String) (name : String) (parentFolder : Option SFolder)
      (files : List (String × SFile)) (subfolders : List (String × SFolder))

/-- Modelled from the spec: `SFile`, a leaf entry with a name, a path and a
parent reference (its class body is not under `src/`). -/
inductive SFile : Type where
  | mk (path : String) (name : String) (parentFolder : Option SFolder)

end

/-- The stored `path` member of a folder. -/
def SFolder.path : SFolder → String
  | .mk p _ _ _ _ => p

/-- The stored `name` member of a folder. -/
def SFolder.name : SFolder → String
  | .mk _ n _ _ _ => n

/-- The stored `parentFolder` member of a folder. -/
def SFolder.parentFolder : SFolder → Option SFolder
  | .mk _ _ pf _ _ => pf

/-- The `files` child mapping of a folder. -/
def SFolder.files : SFolder → List (String × SFile)
  | .mk _ _ _ f _ => f

/-- The `subfolders` child mapping of a folder. -/
def SFolder.subfolders : SFolder → List (String × SFolder)
  | .mk _ _ _ _ sf => sf

/-- The stored `path` member of a file. -/
def SFile.path : SFile → String
  | .mk p _ _ => p

/-- The stored `name` member of a file. -/
def SFile.name : SFile → String
  | .mk _ n _ => n

/-- The `SFolder` constructor from `src/Updater.Data/include/SFolder.h`:
stores `name` and `parentFolder` as given, computes `path = name` when there
is no parent and `path = PathHelper::combine(parentFolder->path, name)`
otherwise, and default-initializes both child mappings to empty.  It has no
failure path. -/
def SFolder.make (name : String) (parentFolder : Option SFolder) : SFolder :=
  match parentFolder with
  | none => SFolder.mk name name none [] []
  | some p => SFolder.mk (PathHelper.combine p.path name) name (some p) [] []

/-- Modelled from the spec: the `SFile` constructor stores its name and
parent and computes its path by the same parent-join rule as folders. -/
def SFile.make (name : String) (parentFolder : SFolder) : SFile :=
  SFile.mk (PathHelper.combine parentFolder.path name) name (some parentFolder)

/-- `child` lies strictly below `parent`: it extends `parent` by a
separator and a further segment, so the two paths are never equal. -/
def isStrictDescendant (child parent : String) : Prop :=
  (∃ s, child = parent ++ pathSeparator ++ s) ∧ parent.length < child.length

/-- C3: a root `SFolder` (no parent) takes its name as its path verbatim,
with no join and no separator insertion; a child `SFolder` takes the
platform join of its parent's path and its own name.  In particular a root
`"pkg"`, a subfolder `"bin"` under it and a file `"a.exe"` under that have
paths `"pkg"`, `"pkg/bin"` and `"pkg/bin/a.exe"`. -/
theorem SFolder.path_construction_spec :
    (∀ n : String, (SFolder.make n none).path = n) ∧
    (∀ (n : String) (p : SFolder),
      (SFolder.make n (some p)).path = PathHelper.combine p.path n) ∧
    (SFolder.make "pkg" none).path = "pkg" ∧
    (SFolder.make "bin" (some (SFolder.make "pkg" none))).path = "pkg/bin" ∧
    (SFile.make "a.exe"
      (SFolder.make "bin" (some (SFolder.make "pkg" none)))).path =
      "pkg/bin/a.exe" := by
  refine ⟨fun n => rfl, fun n p => rfl, rfl, by decide, by decide⟩

/-- C8: every child node placed under a folder reports a path that is a
strict descendant of the folder's own path, for subfolders and files alike;
the path is computed once, at construction, as a pure function of the
constructor arguments (the embedding has no operation that mutates a stored
path). -/
theorem SFolder.child_path_strict_descendant_spec (n : String) (p : SFolder) :
    (SFolder.make n (some p)).path = PathHelper.combine p.path n ∧
    isStrictDescendant (SFolder.make n (some p)).path p.path ∧
    (SFile.make n p).path = PathHelper.combine p.path n ∧
    isStrictDescendant (SFile.make n p).path p.path := by
  have hlen : (PathHelper.combine p.path n).length =
      p.path.length + 1 + n.length := by
    unfold PathHelper.combine pathSeparator
    rw [String.length_append, String.length_append]
    rfl
  have hlt : p.path.length < (PathHelper.combine p.path n).length := by
    rw [hlen]
    omega
  exact ⟨rfl, ⟨⟨n, rfl⟩, hlt⟩, rfl, ⟨⟨n, rfl⟩, hlt⟩⟩

/-- C10: `SFolder` construction is total (a plain function, no failure
path); for every name and every optional parent it stores the given name
and parent reference unchanged and yields empty `files` and `subfolders`
mappings. -/
theorem SFolder.make_fresh_spec (n : String) (pf : Option SFolder) :
    (SFolder.make n pf).name = n ∧
    (SFolder.make n pf).parentFolder = pf ∧
    (SFolder.make n pf).files = [] ∧
    (SFolder.make n pf).subfolders = [] := by
  cases pf <;> exact ⟨rfl, rfl, rfl, rfl⟩

/-- The case-folding projection of a path name: its characters with letters
lowered.  This is the key normalization behind the case-insensitive
comparator. -/
def caseFold (s : String) : List Char :=
  s.data.map Char.toLower

/-- Strict lexicographic comparison of character lists. -/
def lexLt : List Char → List Char → Bool
  | [], [] => false
  | [], _ :: _ => true
  | _ :: _, [] => false
  | a :: as, b :: bs =>
    if a < b then true
    else if b < a then false
    else lexLt as bs

/-- Modelled from the spec: the `PathICompareLT` comparator of `PathHelper.h`
(not under `src/`): case-insensitive lexicographic less-than on names. -/
def icaseLt (a b : String) : Bool :=
  lexLt (caseFold a) (caseFold b)

/-- Case-insensitive equality of names: equality of the case-folded forms
(the comparator's equivalence, `!(a < b) && !(b < a)`). -/
def icaseEq (a b : String) : Bool :=
  decide (caseFold a = caseFold b)

/-- `std::map::find` over the ordered association list: the entry whose key
is equivalent to the query under the comparator (neither strictly less). -/
def PathMap.find? {α : Type} : List (String × α) → String → Option α
  | [], _ => none
  | (k₀, v₀) :: rest, k =>
    if icaseLt k k₀ = false ∧ icaseLt k₀ k = false then some v₀
    else PathMap.find? rest k

/-- `std::map::insert` over the ordered association list: place the new
entry before the first strictly greater key; if a key equivalent under the
comparator is already present, the mapping is unchanged. -/
def PathMap.insert {α : Type} : List (String × α) → String → α → List (String × α)
  | [], k, v => [(k, v)]
  | (k₀, v₀) :: rest, k, v =>
    if icaseLt k k₀ = true then (k, v) :: (k₀, v₀) :: rest
    else if icaseLt k₀ k = true then (k₀, v₀) :: PathMap.insert rest k v
    else (k₀, v₀) :: rest

/-- Iteration order of the mapping: successive keys strictly increase under
the case-insensitive comparator. -/
def PathMap.keysSorted {α : Type} (m : List (String × α)) : Prop :=
  List.Pairwise (fun p q => icaseLt p.1 q.1 = true) m

/-- No two names of the mapping are equal up to letter case. -/
def PathMap.uniqueKeys {α : Type} (m : List (String × α)) : Prop :=
  List.Pairwise (fun p q => icaseEq p.1 q.1 = false) m

/-- `lexLt` is irreflexive. -/
theorem lexLt_irrefl (l : List Char) : lexLt l l = false := by
  induction l with
  | nil => rfl
  | cons a as ih => simp [lexLt, ih]

/-- `lexLt` is transitive. -/
theorem lexLt_trans (a b c : List Char) (hab : lexLt a b = true)
    (hbc : lexLt b c = true) : lexLt a c = true := by
  induction a generalizing b c with
  | nil =>
    cases c with
    | nil =>
      cases b with
      | nil => exact hbc
      | cons y ys => simp [lexLt] at hbc
    | cons z zs => rfl
  | cons x xs ih =>
    cases b with
    | nil => simp [lexLt] at hab
    | cons y ys =>
      cases c with
      | nil => simp [lexLt] at hbc
      | cons z zs =>
        simp only [lexLt] at hab hbc ⊢
        by_cases hxy : x < y
        · by_cases hyz : y < z
          · have hxz : x < z := lt_trans hxy hyz
            simp [hxz]
          · by_cases hzy : z < y
            · simp [hyz, hzy] at hbc
            · have hyz2 : y = z := le_antisymm (not_lt.mp hzy) (not_lt.mp hyz)
              subst hyz2
              simp [hxy]
        · by_cases hyx : y < x
          · simp [hxy, hyx] at hab
          · have hxy2 : x = y := le_antisymm (not_lt.mp hyx) (not_lt.mp hxy)
            subst hxy2
            simp only [lt_irrefl, if_false] at hab
            by_cases hyz : x < z
            · simp [hyz]
            · by_cases hzy : z < x
              · simp [hyz, hzy] at hbc
              · have hyz2 : x = z := le_antisymm (not_lt.mp hzy) (not_lt.mp hyz)
                subst hyz2
                simp only [lt_irrefl, if_false] at hbc ⊢
                exact ih ys zs hab hbc

/-- If neither list is lexicographically below the other they are equal. -/
theorem lexLt_eq_of_not_lt (a b : List Char) (hab : lexLt a b = false)
    (hba : lexLt b a = false) : a = b := by
  induction a generalizing b with
  | nil =>
    cases b with
    | nil => rfl
    | cons y ys => simp [lexLt] at hab
  | cons x xs ih =>
    cases b with
    | nil => simp [lexLt] at hba
    | cons y ys =>
      simp only [lexLt] at hab hba
      by_cases hxy : x < y
      · simp [hxy] at hab
      · by_cases hyx : y < x
        · simp [hxy, hyx] at hba
        · have hxy2 : x = y := le_antisymm (not_lt.mp hyx) (not_lt.mp hxy)
          subst hxy2
          simp only [lt_irrefl, if_false] at hab hba
          rw [ih ys hab hba]

/-- A name strictly below another under the comparator is not equal to it
up to letter case. -/
theorem icaseEq_false_of_icaseLt (a b : String) (h : icaseLt a b = true) :
    icaseEq a b = false := by
  rw [icaseEq, decide_eq_false_iff_not]
  intro heq
  rw [icaseLt, heq, lexLt_irrefl] at h
  exact Bool.false_ne_true h

/-- Every entry of the map after an insertion is an old entry or the
inserted pair. -/
theorem PathMap.mem_insert {α : Type} (m : List (String × α)) (k : String)
    (v : α) (x : String × α) (hx : x ∈ PathMap.insert m k v) :
    x ∈ m ∨ x = (k, v) := by
  induction m with
  | nil =>
    simp only [PathMap.insert, List.mem_singleton] at hx
    exact Or.inr hx
  | cons hd rest ih =>
    obtain ⟨k₀, v₀⟩ := hd
    simp only [PathMap.insert] at hx
    by_cases h1 : icaseLt k k₀ = true
    · rw [if_pos h1] at hx
      rcases List.mem_cons.mp hx with rfl | hx2
      · exact Or.inr rfl
      · exact Or.inl hx2
    · rw [if_neg h1] at hx
      by_cases h2 : icaseLt k₀ k = true
      · rw [if_pos h2] at hx
        rcases List.mem_cons.mp hx with rfl | hx2
        · exact Or.inl (List.mem_cons_self _ _)
        · rcases ih hx2 with hx3 | hx3
          · exact Or.inl (List.mem_cons_of_mem _ hx3)
          · exact Or.inr hx3
      · rw [if_neg h2] at hx
        exact Or.inl hx

/-- Looking up any name equal up to letter case to a freshly inserted key
finds the inserted node. -/
theorem PathMap.find?_insert_eqv {α : Type} (m : List (String × α))
    (k k' : String) (v : α) (hnew : PathMap.find? m k = none)
    (heq : caseFold k = caseFold k') :
    PathMap.find? (PathMap.insert m k v) k' = some v := by
  induction m with
  | nil =>
    simp only [PathMap.insert, PathMap.find?]
    rw [if_pos]
    exact ⟨by rw [icaseLt, ← heq, lexLt_irrefl],
      by rw [icaseLt, heq, lexLt_irrefl]⟩
  | cons hd rest ih =>
    obtain ⟨k₀, v₀⟩ := hd
    simp only [PathMap.find?] at hnew
    by_cases hcond : icaseLt k k₀ = false ∧ icaseLt k₀ k = false
    · rw [if_pos hcond] at hnew
      exact absurd hnew (by simp)
    · rw [if_neg hcond] at hnew
      simp only [PathMap.insert]
      by_cases h1 : icaseLt k k₀ = true
      · rw [if_pos h1]
        simp only [PathMap.find?]
        rw [if_pos]
        exact ⟨by rw [icaseLt, ← heq, lexLt_irrefl],
          by rw [icaseLt, heq, lexLt_irrefl]⟩
      · rw [if_neg h1]
        have hk : icaseLt k k₀ = false := Bool.eq_false_iff.mpr h1
        have h2 : icaseLt k₀ k = true := by
          cases hb : icaseLt k₀ k with
          | false => exact absurd ⟨hk, hb⟩ hcond
          | true => rfl
        rw [if_pos h2]
        simp only [PathMap.find?]
        rw [if_neg]
        · exact ih hnew
        · intro hcond2
          have h3 : icaseLt k₀ k' = true := by
            rw [icaseLt, ← heq]
            exact h2
          rw [hcond2.2] at h3
          exact Bool.false_ne_true h3

/-- Insertion preserves the strictly increasing iteration order of the
mapping. -/
theorem PathMap.keysSorted_insert {α : Type} (m : List (String × α))
    (k : String) (v : α) (hs : PathMap.keysSorted m) :
    PathMap.keysSorted (PathMap.insert m k v) := by
  induction m with
  | nil =>
    simp [PathMap.insert, PathMap.keysSorted]
  | cons hd rest ih =>
    obtain ⟨k₀, v₀⟩ := hd
    simp only [PathMap.keysSorted, List.pairwise_cons] at hs
    obtain ⟨hall, hrest⟩ := hs
    simp only [PathMap.insert]
    by_cases h1 : icaseLt k k₀ = true
    · rw [if_pos h1]
      simp only [PathMap.keysSorted, List.pairwise_cons]
      refine ⟨?_, hall, hrest⟩
      intro q hq
      rcases List.mem_cons.mp hq with rfl | hq2
      · exact h1
      · exact lexLt_trans _ _ _ h1 (hall q hq2)
    · rw [if_neg h1]
      by_cases h2 : icaseLt k₀ k = true
      · rw [if_pos h2]
        simp only [PathMap.keysSorted, List.pairwise_cons]
        constructor
        · intro q hq
          rcases PathMap.mem_insert rest k v q hq with hq2 | rfl
          · exact hall q hq2
          · exact h2
        · exact ih hrest
      · rw [if_neg h2]
        simp only [PathMap.keysSorted, List.pairwise_cons]
        exact ⟨hall, hrest⟩

/-- A mapping in strictly increasing comparator order has no two names
equal up to letter case. -/
theorem PathMap.uniqueKeys_of_keysSorted {α : Type} (m : List (String × α))
    (hs : PathMap.keysSorted m) : PathMap.uniqueKeys m :=
  List.Pairwise.imp (fun h => icaseEq_false_of_icaseLt _ _ h) hs

/-- C4: the case-insensitive child mapping of a folder.  Inserting a child
node under a fresh name and then looking it up under any name equal to it
up to letter case resolves to the same node; the insertion keeps the
mapping ordered by the case-insensitive lexicographic comparison (its
iteration order), and keeps all names unique under that comparison. -/
theorem PathMap.case_insensitive_mapping_spec (m : List (String × SFolder))
    (k k' : String) (v : SFolder) (hs : PathMap.keysSorted m)
    (hnew : PathMap.find? m k = none) (heqv : icaseEq k k' = true) :
    PathMap.find? (PathMap.insert m k v) k' = some v ∧
    PathMap.keysSorted (PathMap.insert m k v) ∧
    PathMap.uniqueKeys (PathMap.insert m k v) := by
  have heq : caseFold k = caseFold k' := of_decide_eq_true heqv
  exact ⟨PathMap.find?_insert_eqv m k k' v hnew heq,
    PathMap.keysSorted_insert m k v hs,
    PathMap.uniqueKeys_of_keysSorted _ (PathMap.keysSorted_insert m k v hs)⟩

/-- Witness for C4: inserting a child named `"Data"` into an empty mapping
and querying with `"data"` resolves to the inserted node, with order and
uniqueness preserved. -/
theorem PathMap.case_insensitive_mapping_spec_witness :
    PathMap.find?
      (PathMap.insert ([] : List (String × SFolder)) "Data"
        (SFolder.make "Data" none)) "data" =
      some (SFolder.make "Data" none) ∧
    PathMap.keysSorted
      (PathMap.insert ([] : List (String × SFolder)) "Data"
        (SFolder.make "Data" none)) := by
  have h := PathMap.case_insensitive_mapping_spec [] "Data" "data"
    (SFolder.make "Data" none) List.Pairwise.nil rfl (by decide)
  exact ⟨h.1, h.2.1⟩

/-- A node of the allocated folder/file graph, recording its strong
(`std::shared_ptr`) references exactly as the members of `SFolder.h`
prescribe: the `parentFolder` back-reference and the values of the `files`
and `subfolders` mappings are all `std::shared_ptr`, hence all owning.
Nodes are identified by their index in the heap list. -/
structure HeapNode where
  name : String
  parentFolder : Option Nat
  files : List Nat
  subfolders : List Nat
deriving DecidableEq, Repr

/-- All strong references held by a node: its `parentFolder` pointer plus
every child pointer stored in its two mappings. -/
def HeapNode.strongRefs (n : HeapNode) : List Nat :=
  n.parentFolder.toList ++ n.files ++ n.subfolders

/-- The strong references held by heap node `y` (none if `y` is not a
node of the heap). -/
def refsFrom (heap : List HeapNode) (y : Nat) : List Nat :=
  match heap[y]? with
  | some node => node.strongRefs
  | none => []

/-- One round of reference-count collection after all external handles are
dropped: a node stays allocated only while some still-allocated node holds
a strong reference to it. -/
def pruneStep (heap : List HeapNode) (live : List Nat) : List Nat :=
  live.filter (fun x => live.any (fun y => (refsFrom heap y).contains x))

/-- The nodes still allocated (leaked) once every external handle is
dropped: collection rounds are run to their fixpoint (after as many rounds
as there are nodes, nothing more can be freed). -/
def leakedNodes (heap : List HeapNode) : List Nat :=
  Nat.iterate (pruneStep heap) heap.length (List.range heap.length)

/-- The two-node structure obtained from `SFolder.h` by constructing a root
`SFolder("pkg")` and a subfolder `SFolder("bin", root)`, registering the
child in the root's `subfolders` mapping: node 0 (the root) holds a
`shared_ptr` to node 1 in `subfolders`, and node 1 holds the `shared_ptr`
member `parentFolder` back to node 0. -/
def pkgBinHeap : List HeapNode :=
  [⟨"pkg", none, [], [1]⟩, ⟨"bin", some 0, [], []⟩]

/-- A childless root folder, for contrast: it holds and receives no strong
reference. -/
def pkgOnlyHeap : List HeapNode :=
  [⟨"pkg", none, [], []⟩]

/-- C2 is false of the code: `SFolder::parentFolder` is a
`std::shared_ptr`, so the child's back-reference to its parent is owning,
parent and child hold strong references to each other, and once the last
external handle to the root is dropped reference counting frees neither
node — the whole two-node structure of `pkgBinHeap` leaks.  Only a
childless root (`pkgOnlyHeap`) is released.  This kernel-checked
evaluation exhibits the ownership cycle and the leak the claim denies. -/
theorem leakedNodes_parent_cycle_leak :
    (refsFrom pkgBinHeap 1).contains 0 = true ∧
    (refsFrom pkgBinHeap 0).contains 1 = true ∧
    leakedNodes pkgBinHeap = [0, 1] ∧
    leakedNodes pkgOnlyHeap = [] := by decide
